import Mathlib

set_option maxHeartbeats 1000000

namespace LCAgents

/-! # String helpers

JavaScript string operations used by the CLI (`String.prototype.includes`,
`String.prototype.endsWith`) modelled on character lists. -/

/-- `chListStarts s pre` is true when `pre` is an initial run of `s`. -/
def chListStarts : List Char → List Char → Bool
  | _, [] => true
  | [], _ :: _ => false
  | a :: s, b :: t => a == b && chListStarts s t

/-- `chListHas s sub` is true when `sub` occurs contiguously inside `s`,
mirroring JavaScript `String.prototype.includes`. -/
def chListHas : List Char → List Char → Bool
  | [], sub => chListStarts [] sub
  | a :: rest, sub => chListStarts (a :: rest) sub || chListHas rest sub

/-- JavaScript `s.includes(sub)`. -/
def strContains (s sub : String) : Bool :=
  chListHas s.data sub.data

/-- JavaScript `s.endsWith(suf)`. -/
def strEndsWith (s suf : String) : Bool :=
  chListStarts s.data.reverse suf.data.reverse

/-- JavaScript `s.toLowerCase()` (ASCII, as `Char.toLower`). -/
def strLower (s : String) : String :=
  ⟨s.data.map Char.toLower⟩

/-! # The layered resource model

The `LayerManager` class itself is not part of the excerpted sources (only its
callers in `resource.ts` and `init.ts` are), so the resolver is modelled from
the spec, section 4.1. -/

/-- Modelled from the spec: the fixed, strictly ordered set of layers
(`core < org < custom < runtime`); `LayerManager`'s layer enumeration is not
in the excerpted sources. -/
inductive Layer where
  | core
  | org
  | custom
  | runtime
deriving DecidableEq, Repr, Fintype

/-- Modelled from the spec: numeric precedence of a layer (higher wins). -/
def Layer.prec : Layer → Nat
  | .core => 0
  | .org => 1
  | .custom => 2
  | .runtime => 3

/-- Directory name of a layer under `.lcagents`. -/
def Layer.dirName : Layer → String
  | .core => "core"
  | .org => "org"
  | .custom => "custom"
  | .runtime => "runtime"

/-- The four layers in ascending precedence order. -/
def ascendingLayers : List Layer := [.core, .org, .custom, .runtime]

/-- The four layers in descending precedence order. -/
def descendingLayers : List Layer := [.runtime, .custom, .org, .core]

/-- A file in one layer directory: name (with extension) and raw text. -/
structure LFile where
  name : String
  content : String
deriving DecidableEq, Repr

/-- A filesystem state seen by the resolver: the active core-system name and,
for each layer and resource type, the files of that layer's type directory. -/
structure LayeredFS where
  coreSystem : String
  files : Layer → String → List LFile

/-- Modelled from the spec: the absolute path (as segments below the install
root) of a resource in a given layer; the core layer nests under the active
core-system name. -/
def resPath (fs : LayeredFS) (l : Layer) (t n : String) : List String :=
  match l with
  | .core => [".lcagents", "core", fs.coreSystem, t, n]
  | l => [".lcagents", l.dirName, t, n]

/-- A resolved resource entry: name, winning layer, physical path. -/
structure Resource where
  name : String
  source : Layer
  path : List String
deriving DecidableEq, Repr

/-- The file names present in one layer's directory for a type. -/
def layerNames (fs : LayeredFS) (l : Layer) (t : String) : List String :=
  (fs.files l t).map (·.name)

/-- The `(name, path)` pairs of one layer tagged with the layer as `source`. -/
def layerEntries (fs : LayeredFS) (l : Layer) (t : String) : List Resource :=
  (fs.files l t).map (fun f => ⟨f.name, l, resPath fs l t f.name⟩)

/-- Modelled from the spec: duplicate resolution of `listResources` — the
argument lists are in ascending precedence order, and an entry of a lower
layer survives only when no higher layer defines the same name. -/
def mergeLayers : List (List Resource) → List Resource
  | [] => []
  | cur :: rest =>
    let high := mergeLayers rest
    cur.filter (fun r => !(high.any (fun s => s.name == r.name))) ++ high

/-- Modelled from the spec: `LayerManager.listResources(type)` — scan every
layer in ascending precedence order and resolve duplicates by name, the
highest-precedence layer winning. -/
def listResources (fs : LayeredFS) (t : String) : List Resource :=
  mergeLayers (ascendingLayers.map (fun l => layerEntries fs l t))

/-- Modelled from the spec: the layer a point lookup resolves to — the
highest-precedence layer whose type directory holds the name. -/
def resolveLayer (fs : LayeredFS) (t n : String) : Option Layer :=
  descendingLayers.find? (fun l => (fs.files l t).any (fun f => f.name == n))

/-- The content of the file named `n` in one layer's type directory. -/
def lookupContent (fs : LayeredFS) (l : Layer) (t n : String) : Option String :=
  ((fs.files l t).find? (fun f => f.name == n)).map (·.content)

/-- Modelled from the spec: `LayerManager.getResourcePath(type, name)` —
the winning file's absolute path, or `null`. -/
def getResourcePath (fs : LayeredFS) (t n : String) : Option (List String) :=
  (resolveLayer fs t n).map (fun l => resPath fs l t n)

/-- Modelled from the spec: `LayerManager.readResource(type, name)` — the
winning file's content, or `null` when no layer defines the name. -/
def readResource (fs : LayeredFS) (t n : String) : Option String :=
  (resolveLayer fs t n).bind (fun l => lookupContent fs l t n)

/-- Modelled from the spec: `LayerManager.resourceExists(type, name)`,
equivalent to `getResourcePath(...) !== null`. -/
def resourceExists (fs : LayeredFS) (t n : String) : Bool :=
  (getResourcePath fs t n).isSome

/-- The content stored in the model filesystem at a given absolute path,
decoding the layer from the path segments. -/
def contentAtPath (fs : LayeredFS) : List String → Option String
  | [a, b, c, t, n] =>
    if a = ".lcagents" ∧ b = "core" ∧ c = fs.coreSystem then
      lookupContent fs .core t n
    else none
  | [a, b, t, n] =>
    if a = ".lcagents" then
      if b = "org" then lookupContent fs .org t n
      else if b = "custom" then lookupContent fs .custom t n
      else if b = "runtime" then lookupContent fs .runtime t n
      else none
    else none
  | _ => none

/-- How many entries of a resolved listing carry a given name. -/
def countName (n : String) (l : List Resource) : Nat :=
  (l.filter (fun r => r.name == n)).length

/-! # The `res create` flow (`src/cli/commands/resource.ts`) -/

/-- The valid resource types of `createResource` (`resource.ts:615`). -/
def createTypes : List String :=
  ["checklists", "templates", "data", "tasks", "workflows", "utils"]

/-- The conflict check of `createResource` (`resource.ts:626`):
`existingResources.some(r => r.name === name + ".md" || r.name === name + ".yaml")`. -/
def createConflict (existing : List Resource) (name : String) : Bool :=
  existing.any (fun r => r.name == name ++ ".md" || r.name == name ++ ".yaml")

/-- The user's answer to the conflict prompt of `createResource`
(`resource.ts:644`): choice `1` renames, `2` extends, `3` overrides,
anything else cancels. -/
inductive CreateChoice where
  | rename (newName : String)
  | extend
  | override
  | cancel

/-- An observable action of the create flow: the conflict report printed to
the user (carrying the entry found for display), or a file write. -/
inductive CEvent where
  | report (found : Option Resource)
  | write (p : List String) (content : String)
deriving DecidableEq, Repr

/-- JavaScript word character (`\w`): letter, digit or underscore. -/
def isWordChar (c : Char) : Bool :=
  c.isAlphanum || c == '_'

/-- `replace(/\b\w/g, l => l.toUpperCase())`: upper-case every word character
that starts a word (no word character right before it). -/
def upperWordStarts : Option Char → List Char → List Char
  | _, [] => []
  | prev, c :: rest =>
    let boundary :=
      match prev with
      | none => true
      | some p => !isWordChar p
    (if isWordChar c && boundary then c.toUpper else c) :: upperWordStarts (some c) rest

/-- The title transformation of `resource.ts`: every dash replaced by a
space, then every word start upper-cased. -/
def titleize (s : String) : String :=
  ⟨upperWordStarts none ((s.map (fun c => if c == '-' then ' ' else c)).data)⟩

/-- The file body written by `createExtensionResource` (`resource.ts:833`). -/
def extensionContent (name : String) : String :=
  let enhancementName := name ++ "-enhancement"
  "# " ++ titleize enhancementName ++ "\n\nThis resource extends the base " ++ name
    ++ " with additional context and customizations.\n\n## Base Resource\nExtends: "
    ++ name
    ++ " (from core/org layer)\n\n## Additional Content\n<!-- Add your enhancements here -->\n\n## Usage\nThis enhancement will be automatically merged with the base resource for richer context.\n"

/-- JavaScript `s.slice(0, -1)`: the string without its final character. -/
def strDropLast (s : String) : String :=
  ⟨s.data.dropLast⟩

/-- `generateResourceTemplate` (`resource.ts:896`), with the current date of
the `data` branch (`new Date().toISOString().split('T')[0]`) passed in as
`todayISO`. -/
def generateResourceTemplate (t name todayISO : String) : String :=
  let title := titleize name
  if t == "checklists" then
    "# " ++ title
      ++ "\n\n## Purpose\nDescribe the purpose and scope of this checklist.\n\n## Prerequisites\n- [ ] List any prerequisites here\n\n## Checklist Items\n- [ ] Step 1: Describe the first step\n- [ ] Step 2: Describe the second step\n- [ ] Step 3: Describe the third step\n\n## Completion Criteria\nDefine what constitutes successful completion.\n\n## Notes\nAdd any additional notes or references.\n"
  else if t == "templates" then
    "# " ++ title
      ++ "\n\n## Template Description\nDescribe what this template is for and when to use it.\n\n## Template Variables\n- \x7b\x7bvariable1\x7d\x7d: Description of variable\n- \x7b\x7bvariable2\x7d\x7d: Description of variable\n\n## Template Content\nYour template content goes here with \x7b\x7bvariables\x7d\x7d as placeholders.\n\n## Usage Example\nShow how to use this template.\n"
  else if t == "data" then
    "# " ++ title
      ++ "\n\n## Description\nDescribe the knowledge or data contained in this resource.\n\n## Content\nYour knowledge base content goes here.\n\n## Related Resources\n- List related checklists, templates, or other resources\n- Link to external documentation if applicable\n\n## Last Updated\n"
      ++ todayISO ++ "\n"
  else if t == "tasks" then
    "# " ++ title
      ++ "\n\n## Task Overview\nDescribe what this task accomplishes.\n\n## Prerequisites\n- List any prerequisites or setup required\n\n## Steps\n1. **Step 1**: Describe the first step\n   - Details about step 1\n   \n2. **Step 2**: Describe the second step\n   - Details about step 2\n\n3. **Step 3**: Describe the third step\n   - Details about step 3\n\n## Expected Outcomes\nDescribe what should be accomplished after completing this task.\n\n## Troubleshooting\nCommon issues and solutions.\n"
  else if t == "workflows" then
    "# " ++ title
      ++ "\n\n## Workflow Description\nDescribe the business process this workflow supports.\n\n## Participants\n- **Agent 1**: Role and responsibilities\n- **Agent 2**: Role and responsibilities\n\n## Workflow Steps\n1. **Initiation**: How the workflow starts\n2. **Processing**: Main workflow steps\n3. **Review**: Quality gates and approval steps\n4. **Completion**: How the workflow concludes\n\n## Handoff Points\n- Between Agent 1 and Agent 2: Criteria and deliverables\n- Quality gates: What triggers each gate\n\n## Success Criteria\nDefine successful workflow completion.\n"
  else
    "# " ++ title ++ "\n\n## Description\nDescribe this " ++ strDropLast t
      ++ " resource.\n\n## Content\nAdd your content here.\n\n## Usage\nExplain how to use this resource.\n"

/-- The content written by `createNewResource` (`resource.ts:866`):
the imported file's content when an import was given, the file existed and
its content is non-empty, else the generated template. `importContent` is
`some c` when `options.import` named an existing file with content `c`. -/
def newResourceContent (t name : String) (importContent : Option String) (todayISO : String) : String :=
  let c0 := importContent.getD ""
  if c0 == "" then generateResourceTemplate t name todayISO else c0

/-- `path.join(basePath, '.lcagents', 'custom', type, file)` as segments. -/
def customPath (basePath t file : String) : List String :=
  [basePath, ".lcagents", "custom", t, file]

/-- The write performed by `createNewResource` (`resource.ts:860`):
`.lcagents/custom/<type>/<name>.md`. -/
def createNewResourceEvents (basePath t name : String) (importContent : Option String)
    (todayISO : String) : List CEvent :=
  [.write (customPath basePath t (name ++ ".md"))
    (newResourceContent t name importContent todayISO)]

/-- The write performed by `createExtensionResource` (`resource.ts:824`):
`.lcagents/custom/<type>/<name>-enhancement.md`. -/
def createExtensionEvents (basePath t name : String) : List CEvent :=
  let enhancementName := name ++ "-enhancement"
  [.write (customPath basePath t (enhancementName ++ ".md")) (extensionContent name)]

/-- The observable actions of `createResource` (`resource.ts:611`): invalid
type aborts; on a conflict the report (carrying
`existingResources.find(r => r.name.includes(name))`) is emitted before the
prompt, and the user's choice decides the single follow-up write. -/
def createResourceEvents (basePath t name : String) (existing : List Resource)
    (choice : CreateChoice) (importContent : Option String) (todayISO : String) : List CEvent :=
  if !(createTypes.contains t) then []
  else if createConflict existing name then
    CEvent.report (existing.find? (fun r => strContains r.name name)) ::
      match choice with
      | .rename newName => createNewResourceEvents basePath t newName importContent todayISO
      | .extend => createExtensionEvents basePath t name
      | .override => createNewResourceEvents basePath t name importContent todayISO
      | .cancel => []
  else createNewResourceEvents basePath t name importContent todayISO

/-- A flat view of the disk: path segments to file content. -/
abbrev Store := List String → Option String

/-- Writing one file. -/
def writeFile (fs : Store) (p : List String) (c : String) : Store :=
  fun q => if q = p then some c else fs q

/-- Running the writes of an event list against the disk. -/
def applyEvents (fs : Store) : List CEvent → Store
  | [] => fs
  | .report _ :: rest => applyEvents fs rest
  | .write p c :: rest => applyEvents (writeFile fs p c) rest

/-! # The `res search` flow (`resource.ts:419`) -/

/-- One entry of a `listResources` result as seen by `searchResources`,
together with the outcome of reading its content (`Except.error` models a
thrown read, `Except.ok none` a `null` content). -/
structure SRes where
  name : String
  path : String
  source : String
  readRes : Except Unit (Option String)

/-- An element of the search result (the `ResourceSearchResult` record of
`resource.ts:379`; `rtype` is its `type` field). -/
structure SearchHit where
  name : String
  path : String
  source : String
  rtype : String
  content : Option String
deriving DecidableEq, Repr

/-- The resource types scanned by `searchResources` (`resource.ts:421`). -/
def searchTypes : List String :=
  ["checklists", "templates", "data", "tasks", "workflows", "utils", "agents"]

/-- The readable-extension test of `resource.ts:442`. -/
def goodExt (n : String) : Bool :=
  strEndsWith n ".md" || strEndsWith n ".yaml" || strEndsWith n ".yml"

/-- `extractContextualSnippet` (`resource.ts:398`). -/
def extractContextualSnippet (content query : String) (maxMatches : Nat) : String :=
  let lines := content.splitOn "\n"
  let matched :=
    ((lines.filter (fun l => l != "" && strContains (strLower l) (strLower query))).take
      maxMatches).map (fun l => ">>> " ++ l)
  if matched.isEmpty then
    String.intercalate "\n" (lines.take (min maxMatches lines.length))
  else
    String.intercalate "\n" matched

/-- The truthy content obtained from a read: a thrown read or a `null` or
empty content yields nothing (`if (content && ...)`). -/
def contentOf : Except Unit (Option String) → Option String
  | .ok (some c) => if c == "" then none else some c
  | _ => none

/-- The hits one listed resource contributes (`resource.ts:428`): a
name match is pushed without content and skips the content search; otherwise
a readable file whose truthy content matches is pushed with a snippet. -/
def procRes (query t : String) (r : SRes) : List SearchHit :=
  if strContains (strLower r.name) (strLower query) then
    [⟨r.name, r.path, r.source, t, none⟩]
  else if goodExt r.name then
    match contentOf r.readRes with
    | some c =>
      if strContains (strLower c) (strLower query) then
        [⟨r.name, r.path, r.source, t, some (extractContextualSnippet c query 3)⟩]
      else []
    | none => []
  else []

/-- The duplicate test of the final filter (`resource.ts:465`). -/
def sameKey (a b : SearchHit) : Bool :=
  a.name == b.name && a.rtype == b.rtype

/-- `results.filter((result, index, self) => index === self.findIndex(...))`:
an element is kept exactly when no earlier element of the original list has
the same `(name, type)` key; `prev` holds the earlier elements. -/
def keepFirstsAux (prev : List SearchHit) : List SearchHit → List SearchHit
  | [] => []
  | r :: rest =>
    if prev.any (fun s => sameKey s r) then keepFirstsAux (prev ++ [r]) rest
    else r :: keepFirstsAux (prev ++ [r]) rest

/-- The duplicate-removal pass of `searchResources` (`resource.ts:464`). -/
def keepFirsts (l : List SearchHit) : List SearchHit :=
  keepFirstsAux [] l

/-- The environment `searchResources` runs against: for each resource type,
either a thrown `listResources` (`Except.error`, caught and skipped) or its
entries. -/
abbrev SearchEnv := String → Except Unit (List SRes)

/-- The hits collected across all types before duplicate removal
(`resource.ts:424`): a type whose listing throws contributes nothing. -/
def rawSearchResults (query : String) (env : SearchEnv) : List SearchHit :=
  searchTypes.flatMap (fun t =>
    match env t with
    | .error _ => []
    | .ok rs => rs.flatMap (procRes query t))

/-- `searchResources` (`resource.ts:419`). -/
def searchResources (query : String) (env : SearchEnv) : List SearchHit :=
  keepFirsts (rawSearchResults query env)

/-! # Uninstall (`src/cli/commands/uninstall.ts`) and the flat-installation
check (`src/cli/commands/init.ts`) -/

/-- The keep-config loop of `uninstallCommand` (`uninstall.ts:122`): every
entry directly under `.lcagents` other than the two config files is removed.
Entries are `(name, content)` pairs. -/
def removeExceptConfig : List (String × String) → List (String × String)
  | [] => []
  | e :: rest =>
    if e.1 != "config.yaml" && e.1 != "user-settings.yaml" then removeExceptConfig rest
    else e :: removeExceptConfig rest

/-- The confirmed uninstall action on the `.lcagents` directory
(`uninstall.ts:118`): with `--keep-config` only the two config files
survive, otherwise the whole tree is removed. -/
def uninstallRun (keepConfig : Bool) (entries : List (String × String)) : List (String × String) :=
  if keepConfig then removeExceptConfig entries else []

/-- Existence of the three paths `checkForFlatInstallation` probes:
`.lcagents`, `.lcagents/core` and `.lcagents/agents`. -/
structure FlatCheckFS where
  rootExists : Bool
  coreExists : Bool
  agentsExists : Bool
deriving DecidableEq, Repr, Fintype

/-- `checkForFlatInstallation` (`init.ts:822`). -/
def checkForFlatInstallation (fs : FlatCheckFS) : Bool :=
  if !fs.rootExists then false
  else if fs.coreExists then false
  else fs.agentsExists

/-- Which installation path `performLayeredInstallation` takes at
`init.ts:743`. -/
inductive InstallStep where
  | migrateFromFlat
  | freshCoreInstall
deriving DecidableEq, Repr

/-- The branch of `performLayeredInstallation` (`init.ts:744`): migrate
exactly when the flat check holds, else install the core system fresh. -/
def installStep (fs : FlatCheckFS) : InstallStep :=
  if checkForFlatInstallation fs then .migrateFromFlat else .freshCoreInstall

/-! # Concrete fixtures for witnesses and counterexamples -/

/-- A filesystem where `core` and `org` both hold `tasks/x.md`. -/
def fsW : LayeredFS :=
  ⟨"bmad-core", fun l t =>
    match l, t with
    | .core, "tasks" => [⟨"x.md", "core copy"⟩]
    | .org, "tasks" => [⟨"x.md", "org copy"⟩]
    | _, _ => []⟩

/-- A filesystem where `core`, `org` and `custom` all hold `tasks/x.md`. -/
def fsC1 : LayeredFS :=
  ⟨"bmad-core", fun l t =>
    match l, t with
    | .core, "tasks" => [⟨"x.md", "core copy"⟩]
    | .org, "tasks" => [⟨"x.md", "org copy"⟩]
    | .custom, "tasks" => [⟨"x.md", "custom copy"⟩]
    | _, _ => []⟩

/-- A filesystem where `core` holds `tasks/rapid.md` and `org` holds
`tasks/api.md`; `"rapid"` contains `"api"` as a substring. -/
def fsCE : LayeredFS :=
  ⟨"bmad-core", fun l t =>
    match l, t with
    | .core, "tasks" => [⟨"rapid.md", "R"⟩]
    | .org, "tasks" => [⟨"api.md", "A"⟩]
    | _, _ => []⟩

/-- A one-entry resolved listing holding `org/tasks/api.md`. -/
def exW : List Resource :=
  [⟨"api.md", .org, [".lcagents", "org", "tasks", "api.md"]⟩]

/-- A search environment where the `templates` listing throws, one `tasks`
entry has an unreadable content, and another `tasks` entry is fine. -/
def envW : SearchEnv := fun t =>
  match t with
  | "tasks" =>
    .ok [⟨"review.md", "/p/review.md", "core", .ok (some "review steps")⟩,
      ⟨"broken.md", "/p/broken.md", "core", .error ()⟩]
  | "templates" => .error ()
  | _ => .ok []

/-! # Lemmas about the layer merge -/

theorem mergeLayers_cons (cur : List Resource) (rest : List (List Resource)) :
    mergeLayers (cur :: rest) =
      cur.filter (fun r => !((mergeLayers rest).any (fun s => s.name == r.name)))
        ++ mergeLayers rest := rfl

theorem mem_mergeLayers_name {ls : List (List Resource)} {n : String} :
    (∃ r ∈ mergeLayers ls, r.name = n) ↔ ∃ cur ∈ ls, ∃ r ∈ cur, r.name = n := by
  induction ls with
  | nil => simp [mergeLayers]
  | cons cur rest ih =>
    rw [mergeLayers_cons]
    constructor
    · rintro ⟨r, hr, rfl⟩
      rcases List.mem_append.mp hr with hrc | hrh
      · exact ⟨cur, List.mem_cons_self _ _, r, (List.mem_filter.mp hrc).1, rfl⟩
      · obtain ⟨c, hc, hex⟩ := ih.mp ⟨r, hrh, rfl⟩
        exact ⟨c, List.mem_cons_of_mem _ hc, hex⟩
    · rintro ⟨c, hc, r, hrc, rfl⟩
      rcases List.mem_cons.mp hc with rfl | hc
      · by_cases hhigh : ∃ s ∈ mergeLayers rest, s.name = r.name
        · obtain ⟨s, hs, hsn⟩ := hhigh
          exact ⟨s, List.mem_append.mpr (Or.inr hs), hsn⟩
        · refine ⟨r, List.mem_append.mpr (Or.inl (List.mem_filter.mpr ⟨hrc, ?_⟩)), rfl⟩
          cases hany : (mergeLayers rest).any (fun s => s.name == r.name)
          · rfl
          · obtain ⟨s, hs, hsb⟩ := List.any_eq_true.mp hany
            exact absurd ⟨s, hs, eq_of_beq hsb⟩ hhigh
      · obtain ⟨s, hs, hsn⟩ := ih.mpr ⟨c, hc, r, hrc, rfl⟩
        exact ⟨s, List.mem_append.mpr (Or.inr hs), hsn⟩

theorem exists_source_list_of_mem_mergeLayers {ls : List (List Resource)} {r : Resource}
    (h : r ∈ mergeLayers ls) : ∃ cur ∈ ls, r ∈ cur := by
  induction ls with
  | nil => simp [mergeLayers] at h
  | cons cur rest ih =>
    rw [mergeLayers_cons] at h
    rcases List.mem_append.mp h with hc | hh
    · exact ⟨cur, List.mem_cons_self _ _, (List.mem_filter.mp hc).1⟩
    · obtain ⟨c, hc, hr⟩ := ih hh
      exact ⟨c, List.mem_cons_of_mem _ hc, hr⟩

theorem mergeLayers_split {ls : List (List Resource)} {r : Resource}
    (h : r ∈ mergeLayers ls) :
    ∃ pre cur post, ls = pre ++ cur :: post ∧ r ∈ cur ∧
      ∀ later ∈ post, ∀ s ∈ later, s.name ≠ r.name := by
  induction ls with
  | nil => simp [mergeLayers] at h
  | cons cur rest ih =>
    rw [mergeLayers_cons] at h
    rcases List.mem_append.mp h with hc | hh
    · obtain ⟨hrc, hcond⟩ := List.mem_filter.mp hc
      refine ⟨[], cur, rest, rfl, hrc, ?_⟩
      intro later hlater s hs heq
      have hex : ∃ s2 ∈ mergeLayers rest, s2.name = r.name :=
        mem_mergeLayers_name.mpr ⟨later, hlater, s, hs, heq⟩
      obtain ⟨s2, hs2, hs2n⟩ := hex
      simp only [Bool.not_eq_true', List.any_eq_false] at hcond
      have hcond2 := hcond s2 hs2
      rw [hs2n] at hcond2
      simp at hcond2
    · obtain ⟨pre2, cur2, post2, heq, hmem, hlater⟩ := ih hh
      exact ⟨cur :: pre2, cur2, post2, by rw [heq]; rfl, hmem, hlater⟩

theorem countName_eq_zero {n : String} {l : List Resource} :
    countName n l = 0 ↔ ∀ r ∈ l, r.name ≠ n := by
  simp [countName, List.length_eq_zero, List.filter_eq_nil_iff]

theorem countName_append (n : String) (l1 l2 : List Resource) :
    countName n (l1 ++ l2) = countName n l1 + countName n l2 := by
  simp [countName, List.filter_append]

theorem countName_single_of_nodup {n : String} {l : List Resource}
    (h : (l.map (·.name)).Nodup) :
    countName n l = if n ∈ l.map (·.name) then 1 else 0 := by
  induction l with
  | nil => simp [countName]
  | cons r rest ih =>
    rw [List.map_cons, List.nodup_cons] at h
    obtain ⟨hr, hrest⟩ := h
    by_cases heq : r.name = n
    · have h0 : countName n rest = 0 := by
        rw [countName_eq_zero]
        intro s hs hsn
        apply hr
        rw [← heq] at hsn
        exact hsn ▸ List.mem_map_of_mem (·.name) hs

      have hmem : n ∈ r.name :: rest.map (·.name) := by
        rw [heq]; exact List.mem_cons_self _ _
      rw [List.map_cons, if_pos hmem]
      simp only [countName, List.filter_cons, heq, beq_self_eq_true, if_true,
        List.length_cons]
      have : (List.filter (fun r => r.name == n) rest).length = 0 := h0
      omega
    · have hmem : (n ∈ r.name :: rest.map (·.name)) ↔ n ∈ rest.map (·.name) := by
        constructor
        · intro h
          rcases List.mem_cons.mp h with h | h
          · exact absurd h.symm heq
          · exact h
        · exact List.mem_cons_of_mem _
      rw [List.map_cons]
      have hne : (r.name == n) = false := by
        simp [heq]
      have hstep : countName n (r :: rest) = countName n rest := by
        simp [countName, List.filter_cons, hne]
      rw [hstep, ih hrest]
      by_cases hm : n ∈ rest.map (·.name)
      · rw [if_pos hm, if_pos (hmem.mpr hm)]
      · rw [if_neg hm, if_neg (fun hc => hm (hmem.mp hc))]

theorem countName_mergeLayers {ls : List (List Resource)} {n : String}
    (h : ∀ cur ∈ ls, (cur.map (·.name)).Nodup) :
    countName n (mergeLayers ls) =
      if ∃ cur ∈ ls, ∃ r ∈ cur, r.name = n then 1 else 0 := by
  induction ls with
  | nil => simp [mergeLayers, countName]
  | cons cur rest ih =>
    have hrest := ih (fun c hc => h c (List.mem_cons_of_mem _ hc))
    have hcur := h cur (List.mem_cons_self _ _)
    rw [mergeLayers_cons, countName_append]
    by_cases hhigh : ∃ s ∈ mergeLayers rest, s.name = n
    · have hf0 : countName n
          (cur.filter (fun r => !((mergeLayers rest).any (fun s => s.name == r.name)))) = 0 := by
        rw [countName_eq_zero]
        intro r hrf hrn
        obtain ⟨hrc, hcond⟩ := List.mem_filter.mp hrf
        simp only [Bool.not_eq_true', List.any_eq_false] at hcond
        obtain ⟨s, hs, hsn⟩ := hhigh
        have hc2 := hcond s hs
        rw [hsn, hrn] at hc2
        simp at hc2
      have hh1 : countName n (mergeLayers rest) = 1 := by
        rw [hrest, if_pos (mem_mergeLayers_name.mp hhigh)]
      rw [hf0, hh1, if_pos]
      obtain ⟨c, hc, hex⟩ := mem_mergeLayers_name.mp hhigh
      exact ⟨c, List.mem_cons_of_mem _ hc, hex⟩
    · have hh0 : countName n (mergeLayers rest) = 0 := by
        rw [hrest, if_neg]
        intro hex
        exact hhigh (mem_mergeLayers_name.mpr hex)
      have hface : countName n
          (cur.filter (fun r => !((mergeLayers rest).any (fun s => s.name == r.name)))) =
          countName n cur := by
        unfold countName
        rw [List.filter_filter]
        congr 1
        apply List.filter_congr
        intro r hrc
        by_cases hrn : r.name = n
        · have hcond : ((mergeLayers rest).any (fun s => s.name == r.name)) = false := by
            apply Bool.eq_false_iff.mpr
            intro hany
            obtain ⟨s, hs, hsb⟩ := List.any_eq_true.mp hany
            refine hhigh ⟨s, hs, ?_⟩
            rw [eq_of_beq hsb]
            exact hrn
          rw [hrn] at hcond
          simp only [hcond, hrn, beq_self_eq_true, Bool.not_false, Bool.and_true]
        · simp [hrn]
      rw [hface, hh0, Nat.add_zero, countName_single_of_nodup hcur]
      by_cases hm : n ∈ cur.map (·.name)
      · rw [if_pos hm, if_pos]
        obtain ⟨r, hrc, hrn⟩ := List.mem_map.mp hm
        exact ⟨cur, List.mem_cons_self _ _, r, hrc, hrn⟩
      · rw [if_neg hm, if_neg]
        rintro ⟨c, hc, r, hrc, rfl⟩
        rcases List.mem_cons.mp hc with rfl | hc
        · exact hm (List.mem_map_of_mem _ hrc)
        · exact hhigh (mem_mergeLayers_name.mpr ⟨c, hc, r, hrc, rfl⟩)

theorem layerEntries_source {fs : LayeredFS} {l : Layer} {t : String} {r : Resource}
    (h : r ∈ layerEntries fs l t) : r.source = l ∧ r.name ∈ layerNames fs l t := by
  simp only [layerEntries, List.mem_map] at h
  obtain ⟨f, hf, rfl⟩ := h
  exact ⟨rfl, List.mem_map_of_mem (·.name) hf⟩

theorem layerEntries_name_mem {fs : LayeredFS} {l : Layer} {t n : String} :
    (∃ r ∈ layerEntries fs l t, r.name = n) ↔ n ∈ layerNames fs l t := by
  simp [layerEntries, layerNames]

theorem mem_ascendingLayers (l : Layer) : l ∈ ascendingLayers := by
  cases l <;> simp [ascendingLayers]

theorem mem_listResources_name {fs : LayeredFS} {t n : String} :
    (∃ r ∈ listResources fs t, r.name = n) ↔ ∃ l : Layer, n ∈ layerNames fs l t := by
  rw [listResources, mem_mergeLayers_name]
  constructor
  · rintro ⟨cur, hcur, hex⟩
    obtain ⟨l, -, rfl⟩ := List.mem_map.mp hcur
    exact ⟨l, layerEntries_name_mem.mp hex⟩
  · rintro ⟨l, hl⟩
    exact ⟨layerEntries fs l t, List.mem_map_of_mem _ (mem_ascendingLayers l),
      layerEntries_name_mem.mpr hl⟩

theorem split4 {α : Type _} {A B C D cur : List α} {pre post : List (List α)}
    (h : [A, B, C, D] = pre ++ cur :: post) :
    (cur = A ∧ post = [B, C, D]) ∨ (cur = B ∧ post = [C, D]) ∨
    (cur = C ∧ post = [D]) ∨ (cur = D ∧ post = []) := by
  rcases pre with _ | ⟨a1, _ | ⟨a2, _ | ⟨a3, _ | ⟨a4, pre4⟩⟩⟩⟩
  · simp only [List.nil_append, List.cons.injEq] at h
    exact Or.inl ⟨h.1.symm, h.2.symm⟩
  · simp only [List.cons_append, List.nil_append, List.cons.injEq] at h
    exact Or.inr (Or.inl ⟨h.2.1.symm, h.2.2.symm⟩)
  · simp only [List.cons_append, List.nil_append, List.cons.injEq] at h
    exact Or.inr (Or.inr (Or.inl ⟨h.2.2.1.symm, h.2.2.2.symm⟩))
  · simp only [List.cons_append, List.nil_append, List.cons.injEq] at h
    exact Or.inr (Or.inr (Or.inr ⟨h.2.2.2.1.symm, h.2.2.2.2.symm⟩))
  · simp only [List.cons_append, List.cons.injEq] at h
    have h5 := h.2.2.2.2
    exact absurd h5.symm (by simp)

theorem layerEntries_names_eq (fs : LayeredFS) (l : Layer) (t : String) :
    (layerEntries fs l t).map (·.name) = layerNames fs l t := by
  simp [layerEntries, layerNames]

/-- C1 (amended): when `L2` is the highest-precedence layer holding name `N`
(and some strictly lower layer `L1` also holds it), `listResources` returns
exactly one entry named `N`, its source is `L2`; and every name held by
exactly one layer keeps an entry from that layer. -/
theorem listResources_shadowing
    (fs : LayeredFS) (t : String) (L1 L2 : Layer) (N : String)
    (hnd : ∀ l : Layer, (layerNames fs l t).Nodup)
    (h12 : L1.prec < L2.prec)
    (h1 : N ∈ layerNames fs L1 t) (h2 : N ∈ layerNames fs L2 t)
    (htop : ∀ l : Layer, N ∈ layerNames fs l t → l.prec ≤ L2.prec) :
    countName N (listResources fs t) = 1 ∧
    (∀ r ∈ listResources fs t, r.name = N → r.source = L2) ∧
    (∀ M : String, ∀ l : Layer, M ∈ layerNames fs l t →
      (∀ l2 : Layer, l2 ≠ l → M ∉ layerNames fs l2 t) →
      ∃ r ∈ listResources fs t, r.name = M ∧ r.source = l) := by
  have hndE : ∀ cur ∈ ascendingLayers.map (fun l => layerEntries fs l t),
      (cur.map (·.name)).Nodup := by
    intro cur hcur
    obtain ⟨l, -, rfl⟩ := List.mem_map.mp hcur
    rw [layerEntries_names_eq]
    exact hnd l
  refine ⟨?_, ?_, ?_⟩
  · rw [listResources, countName_mergeLayers hndE, if_pos]
    exact ⟨layerEntries fs L2 t, List.mem_map_of_mem _ (mem_ascendingLayers L2),
      layerEntries_name_mem.mpr h2⟩
  · intro r hr hrn
    rw [listResources] at hr
    obtain ⟨pre, cur, post, heq, hmem, hlater⟩ := mergeLayers_split hr
    have hls : ascendingLayers.map (fun l => layerEntries fs l t) =
        [layerEntries fs .core t, layerEntries fs .org t,
          layerEntries fs .custom t, layerEntries fs .runtime t] := by
      simp [ascendingLayers]
    rw [hls] at heq
    have hnot : ∀ u : Layer, layerEntries fs u t ∈ post → N ∉ layerNames fs u t := by
      intro u hu hNu
      obtain ⟨s, hs, hsn⟩ := layerEntries_name_mem.mpr hNu
      exact hlater _ hu s hs (hsn.trans hrn.symm)
    rcases split4 heq with ⟨hcur, hpost⟩ | ⟨hcur, hpost⟩ | ⟨hcur, hpost⟩ | ⟨hcur, hpost⟩
    · have hsrc := (layerEntries_source (hcur ▸ hmem)).1
      rw [hsrc]
      cases L2 with
      | core => rfl
      | org => exact absurd h2 (hnot .org (by rw [hpost]; simp))
      | custom => exact absurd h2 (hnot .custom (by rw [hpost]; simp))
      | runtime => exact absurd h2 (hnot .runtime (by rw [hpost]; simp))
    · have hsrc := (layerEntries_source (hcur ▸ hmem)).1
      have hrl0 : N ∈ layerNames fs .org t :=
        hrn ▸ (layerEntries_source (hcur ▸ hmem)).2
      rw [hsrc]
      cases L2 with
      | core =>
        have hle := htop .org hrl0
        simp [Layer.prec] at hle
      | org => rfl
      | custom => exact absurd h2 (hnot .custom (by rw [hpost]; simp))
      | runtime => exact absurd h2 (hnot .runtime (by rw [hpost]; simp))
    · have hsrc := (layerEntries_source (hcur ▸ hmem)).1
      have hrl0 : N ∈ layerNames fs .custom t :=
        hrn ▸ (layerEntries_source (hcur ▸ hmem)).2
      rw [hsrc]
      cases L2 with
      | core =>
        have hle := htop .custom hrl0
        simp [Layer.prec] at hle
      | org =>
        have hle := htop .custom hrl0
        simp [Layer.prec] at hle
      | custom => rfl
      | runtime => exact absurd h2 (hnot .runtime (by rw [hpost]; simp))
    · have hsrc := (layerEntries_source (hcur ▸ hmem)).1
      have hrl0 : N ∈ layerNames fs .runtime t :=
        hrn ▸ (layerEntries_source (hcur ▸ hmem)).2
      rw [hsrc]
      cases L2 with
      | core =>
        have hle := htop .runtime hrl0
        simp [Layer.prec] at hle
      | org =>
        have hle := htop .runtime hrl0
        simp [Layer.prec] at hle
      | custom =>
        have hle := htop .runtime hrl0
        simp [Layer.prec] at hle
      | runtime => rfl
  · intro M l hMl huniq
    obtain ⟨r, hr, hrn⟩ := mem_listResources_name.mpr ⟨l, hMl⟩
    refine ⟨r, hr, hrn, ?_⟩
    rw [listResources] at hr
    obtain ⟨cur, hcur, hmem⟩ := exists_source_list_of_mem_mergeLayers hr
    obtain ⟨l0, -, rfl⟩ := List.mem_map.mp hcur
    have hs := layerEntries_source hmem
    by_cases hl : l0 = l
    · rw [hs.1, hl]
    · exact absurd (hrn ▸ hs.2) (huniq l0 hl)

/-- C1, counterexample to the claim as stated: with `x.md` present in
`core`, `org` and `custom`, the pair `L1 = core`, `L2 = org` satisfies the
claim's hypotheses, yet no entry named `x.md` in the result has source
`org` (the winner is `custom`). -/
theorem listResources_shadowing_counterexample :
    Layer.core.prec < Layer.org.prec ∧
    "x.md" ∈ layerNames fsC1 Layer.core "tasks" ∧
    "x.md" ∈ layerNames fsC1 Layer.org "tasks" ∧
    ¬(∃ r ∈ listResources fsC1 "tasks", r.name = "x.md" ∧ r.source = Layer.org) := by
  decide

/-- C1, witness: the amended theorem applied to a filesystem where `core`
and `org` both hold `tasks/x.md` and no other layer does. -/
theorem listResources_shadowing_witness :
    countName "x.md" (listResources fsW "tasks") = 1 ∧
    (∀ r ∈ listResources fsW "tasks", r.name = "x.md" → r.source = Layer.org) ∧
    (∀ M : String, ∀ l : Layer, M ∈ layerNames fsW l "tasks" →
      (∀ l2 : Layer, l2 ≠ l → M ∉ layerNames fsW l2 "tasks") →
      ∃ r ∈ listResources fsW "tasks", r.name = M ∧ r.source = l) :=
  listResources_shadowing fsW "tasks" .core .org "x.md" (by decide) (by decide)
    (by decide) (by decide) (by decide)

theorem resolveLayer_mem_names {fs : LayeredFS} {t n : String} {l : Layer}
    (h : resolveLayer fs t n = some l) : n ∈ layerNames fs l t := by
  have hp := List.find?_some h
  obtain ⟨f, hf, hfn⟩ := List.any_eq_true.mp hp
  exact (eq_of_beq hfn) ▸ List.mem_map_of_mem (·.name) hf

theorem resolveLayer_none_names {fs : LayeredFS} {t n : String}
    (h : resolveLayer fs t n = none) : ∀ l : Layer, n ∉ layerNames fs l t := by
  intro l hl
  rw [resolveLayer, List.find?_eq_none] at h
  have hmem : l ∈ descendingLayers := by cases l <;> simp [descendingLayers]
  apply h l hmem
  obtain ⟨f, hf, hfn⟩ := List.mem_map.mp hl
  exact List.any_eq_true.mpr ⟨f, hf, by simp [hfn]⟩

theorem lookupContent_isSome_of_mem {fs : LayeredFS} {l : Layer} {t n : String}
    (h : n ∈ layerNames fs l t) : (lookupContent fs l t n).isSome = true := by
  rw [lookupContent, Option.isSome_map']
  rw [List.find?_isSome]
  obtain ⟨f, hf, hfn⟩ := List.mem_map.mp h
  exact ⟨f, hf, by simp [hfn]⟩

theorem contentAtPath_resPath (fs : LayeredFS) (l : Layer) (t n : String) :
    contentAtPath fs (resPath fs l t n) = lookupContent fs l t n := by
  cases l <;> simp [resPath, contentAtPath, Layer.dirName]

/-- C2: whenever `getResourcePath` returns a path, `readResource` returns
exactly the content stored at that path (and the path holds a file);
`readResource` is null iff `getResourcePath` is null; and `resourceExists`
is true iff the name appears in `listResources`. -/
theorem readResource_consistency (fs : LayeredFS) (t n : String) :
    (∀ p, getResourcePath fs t n = some p →
      readResource fs t n = contentAtPath fs p ∧ (contentAtPath fs p).isSome = true) ∧
    (readResource fs t n = none ↔ getResourcePath fs t n = none) ∧
    (resourceExists fs t n = true ↔ ∃ r ∈ listResources fs t, r.name = n) := by
  match hres : resolveLayer fs t n with
  | none =>
    refine ⟨?_, ?_, ?_⟩
    · intro p hp
      rw [getResourcePath, hres] at hp
      simp at hp
    · simp [readResource, getResourcePath, hres]
    · constructor
      · intro hex
        rw [resourceExists, getResourcePath, hres] at hex
        simp at hex
      · intro hex
        obtain ⟨r, hr, hrn⟩ := hex
        obtain ⟨l, hl⟩ := mem_listResources_name.mp ⟨r, hr, hrn⟩
        exact absurd hl (resolveLayer_none_names hres l)
  | some l =>
    have hn := resolveLayer_mem_names hres
    have hsome := lookupContent_isSome_of_mem hn
    refine ⟨?_, ?_, ?_⟩
    · intro p hp
      rw [getResourcePath, hres] at hp
      simp only [Option.map_some', Option.some.injEq] at hp
      subst hp
      constructor
      · rw [readResource, hres, contentAtPath_resPath]
        rfl
      · rw [contentAtPath_resPath]
        exact hsome
    · constructor
      · intro hread
        rw [readResource, hres] at hread
        have hl0 : lookupContent fs l t n = none := hread
        rw [hl0] at hsome
        simp at hsome
      · intro hget
        rw [getResourcePath, hres] at hget
        simp at hget
    · constructor
      · intro _
        exact mem_listResources_name.mpr ⟨l, hn⟩
      · intro _
        rw [resourceExists, getResourcePath, hres]
        rfl

/-- C2, witness: on a filesystem where `core` and `org` both hold
`tasks/x.md`, the resolved path is the `org` one and `readResource` agrees
with the content stored there. -/
theorem readResource_consistency_witness :
    readResource fsW "tasks" "x.md" =
        contentAtPath fsW [".lcagents", "org", "tasks", "x.md"] ∧
      (contentAtPath fsW [".lcagents", "org", "tasks", "x.md"]).isSome = true :=
  (readResource_consistency fsW "tasks" "x.md").1 _ (by decide)

/-- C3: the create flow detects a conflict exactly when some layer holds a
file named `<name>.md` or `<name>.yaml` — comparison is name equality
against the base name with either extension, over every layer. -/
theorem createConflict_iff (fs : LayeredFS) (t name : String) :
    createConflict (listResources fs t) name = true ↔
      ∃ l : Layer, name ++ ".md" ∈ layerNames fs l t ∨
        name ++ ".yaml" ∈ layerNames fs l t := by
  rw [createConflict]
  constructor
  · intro h
    obtain ⟨r, hr, hrb⟩ := List.any_eq_true.mp h
    have hdisj : r.name = name ++ ".md" ∨ r.name = name ++ ".yaml" := by
      rcases Bool.or_eq_true_iff.mp hrb with hb | hb
      · exact Or.inl (eq_of_beq hb)
      · exact Or.inr (eq_of_beq hb)
    rcases hdisj with hmd | hya
    · obtain ⟨l, hl⟩ := mem_listResources_name.mp ⟨r, hr, hmd⟩
      exact ⟨l, Or.inl hl⟩
    · obtain ⟨l, hl⟩ := mem_listResources_name.mp ⟨r, hr, hya⟩
      exact ⟨l, Or.inr hl⟩
  · rintro ⟨l, hl | hl⟩
    · obtain ⟨r, hr, hrn⟩ := mem_listResources_name.mpr ⟨l, hl⟩
      exact List.any_eq_true.mpr ⟨r, hr, by simp [hrn]⟩
    · obtain ⟨r, hr, hrn⟩ := mem_listResources_name.mpr ⟨l, hl⟩
      exact List.any_eq_true.mpr ⟨r, hr, by simp [hrn]⟩

theorem createNewResourceEvents_shape {basePath t nm : String} {ic : Option String}
    {d : String} {e : CEvent} (he : e ∈ createNewResourceEvents basePath t nm ic d) :
    e = CEvent.write [basePath, ".lcagents", "custom", t, nm ++ ".md"]
      (newResourceContent t nm ic d) := by
  simpa [createNewResourceEvents, customPath] using he

theorem createExtensionEvents_shape {basePath t nm : String} {e : CEvent}
    (he : e ∈ createExtensionEvents basePath t nm) :
    e = CEvent.write [basePath, ".lcagents", "custom", t, (nm ++ "-enhancement") ++ ".md"]
      (extensionContent nm) := by
  simpa [createExtensionEvents, customPath] using he

/-- C4 (amended): on a valid type, if a resource named `<name>.md` or
`<name>.yaml` already resolves, the create flow emits the conflict report —
carrying the first listed resource whose name contains the requested name as
a substring — before any write; every follow-up write goes to the custom
layer (so no core/org file is overwritten in place), and an unrecognised
choice writes nothing. -/
theorem createResource_conflict_guard
    (basePath t name : String) (existing : List Resource) (choice : CreateChoice)
    (importContent : Option String) (todayISO : String)
    (hvalid : createTypes.contains t = true)
    (hconf : createConflict existing name = true) :
    ∃ rest, createResourceEvents basePath t name existing choice importContent todayISO =
        CEvent.report (existing.find? (fun r => strContains r.name name)) :: rest ∧
      (∀ e ∈ rest, ∃ base c,
        e = CEvent.write [basePath, ".lcagents", "custom", t, base ++ ".md"] c) ∧
      (choice = CreateChoice.cancel → rest = []) := by
  have hreduce : createResourceEvents basePath t name existing choice importContent todayISO =
      CEvent.report (existing.find? (fun r => strContains r.name name)) ::
        (match choice with
          | .rename nn => createNewResourceEvents basePath t nn importContent todayISO
          | .extend => createExtensionEvents basePath t name
          | .override => createNewResourceEvents basePath t name importContent todayISO
          | .cancel => []) := by
    rw [createResourceEvents.eq_def, hvalid, hconf]
    simp
  refine ⟨_, hreduce, ?_, ?_⟩
  · intro e he
    cases choice with
    | rename nn => exact ⟨nn, _, createNewResourceEvents_shape he⟩
    | extend => exact ⟨name ++ "-enhancement", _, createExtensionEvents_shape he⟩
    | override => exact ⟨name, _, createNewResourceEvents_shape he⟩
    | cancel => simp at he
  · intro hcancel
    subst hcancel
    rfl

/-- C4, counterexample to the claim as stated: with `core/tasks/rapid.md`
and `org/tasks/api.md` on disk, creating `api` is a conflict (against the
`org` entry `api.md`), but the report carries the `core` entry `rapid.md` —
whose name merely contains `"api"` as a substring — not the conflicting
winner's layer and path. -/
theorem createResource_report_not_winner :
    createConflict (listResources fsCE "tasks") "api" = true ∧
    (createResourceEvents "/repo" "tasks" "api" (listResources fsCE "tasks")
        CreateChoice.cancel none "2026-10-11").head? =
      some (CEvent.report ((listResources fsCE "tasks").find?
        (fun r => strContains r.name "api"))) ∧
    ((listResources fsCE "tasks").find? (fun r => strContains r.name "api")) =
      some ⟨"rapid.md", Layer.core,
        [".lcagents", "core", "bmad-core", "tasks", "rapid.md"]⟩ ∧
    ¬("rapid.md" = "api" ++ ".md" ∨ "rapid.md" = "api" ++ ".yaml") := by
  decide

/-- C4, witness: the amended theorem applied to a conflicting `tasks/api`
creation resolved with the extension choice. -/
theorem createResource_conflict_guard_witness :
    ∃ rest, createResourceEvents "/repo" "tasks" "api" exW CreateChoice.extend
        none "2026-10-11" =
        CEvent.report (exW.find? (fun r => strContains r.name "api")) :: rest ∧
      (∀ e ∈ rest, ∃ base c,
        e = CEvent.write ["/repo", ".lcagents", "custom", "tasks", base ++ ".md"] c) ∧
      (CreateChoice.extend = CreateChoice.cancel → rest = []) :=
  createResource_conflict_guard "/repo" "tasks" "api" exW .extend none "2026-10-11"
    (by decide) (by decide)

/-- C8: resolving a conflict with the extension choice writes exactly the
file `.lcagents/custom/<type>/<base>-enhancement.md` and leaves every other
path — in particular every core, org and runtime file — unchanged. -/
theorem createExtension_frame (fs : Store) (basePath t name : String) :
    (applyEvents fs (createExtensionEvents basePath t name)
        [basePath, ".lcagents", "custom", t, (name ++ "-enhancement") ++ ".md"] =
      some (extensionContent name)) ∧
    (∀ p, applyEvents fs (createExtensionEvents basePath t name) p =
      if p = [basePath, ".lcagents", "custom", t, (name ++ "-enhancement") ++ ".md"]
      then some (extensionContent name) else fs p) ∧
    (∀ bp cs t2 n2, applyEvents fs (createExtensionEvents basePath t name)
        [bp, ".lcagents", "core", cs, t2, n2] = fs [bp, ".lcagents", "core", cs, t2, n2]) ∧
    (∀ bp t2 n2, applyEvents fs (createExtensionEvents basePath t name)
        [bp, ".lcagents", "org", t2, n2] = fs [bp, ".lcagents", "org", t2, n2]) ∧
    (∀ bp t2 n2, applyEvents fs (createExtensionEvents basePath t name)
        [bp, ".lcagents", "runtime", t2, n2] = fs [bp, ".lcagents", "runtime", t2, n2]) := by
  have hgen : ∀ p, applyEvents fs (createExtensionEvents basePath t name) p =
      if p = [basePath, ".lcagents", "custom", t, (name ++ "-enhancement") ++ ".md"]
      then some (extensionContent name) else fs p := by
    intro p
    simp [createExtensionEvents, applyEvents, writeFile, customPath]
  refine ⟨by rw [hgen, if_pos rfl], hgen, ?_, ?_, ?_⟩
  · intro bp cs t2 n2
    rw [hgen, if_neg]
    intro hcontra
    simp at hcontra
  · intro bp t2 n2
    rw [hgen, if_neg]
    intro hcontra
    simp at hcontra
  · intro bp t2 n2
    rw [hgen, if_neg]
    intro hcontra
    simp at hcontra

/-- C9: every file the create flow writes — plain create, rename, override
or extension — lands at `.lcagents/custom/<type>/<something>.md`; no core,
org or runtime path is ever written. -/
theorem createResource_writes_custom_md
    (basePath t name : String) (existing : List Resource) (choice : CreateChoice)
    (importContent : Option String) (todayISO : String) :
    ∀ e ∈ createResourceEvents basePath t name existing choice importContent todayISO,
      ∀ p c, e = CEvent.write p c →
        ∃ base, p = [basePath, ".lcagents", "custom", t, base ++ ".md"] := by
  intro e he p c hew
  rw [createResourceEvents.eq_def] at he
  by_cases hv : createTypes.contains t = true
  · rw [hv] at he
    simp only [Bool.not_true, Bool.false_eq_true, if_false] at he
    by_cases hc : createConflict existing name = true
    · rw [if_pos hc] at he
      rcases List.mem_cons.mp he with heq | he2
      · subst heq
        exact CEvent.noConfusion hew
      · cases choice with
        | rename nn =>
          have hsh := createNewResourceEvents_shape he2
          rw [hsh] at hew
          injection hew with hp hcc
          exact ⟨nn, hp.symm⟩
        | extend =>
          have hsh := createExtensionEvents_shape he2
          rw [hsh] at hew
          injection hew with hp hcc
          exact ⟨name ++ "-enhancement", hp.symm⟩
        | override =>
          have hsh := createNewResourceEvents_shape he2
          rw [hsh] at hew
          injection hew with hp hcc
          exact ⟨name, hp.symm⟩
        | cancel => simp at he2
    · rw [if_neg hc] at he
      have hsh := createNewResourceEvents_shape he
      rw [hsh] at hew
      injection hew with hp hcc
      exact ⟨name, hp.symm⟩
  · have hv2 : createTypes.contains t = false := Bool.eq_false_iff.mpr hv
    rw [hv2] at he
    simp at he

/-- C9, witness: a plain create of `tasks/api` writes exactly one file, at
`.lcagents/custom/tasks/api.md`. -/
theorem createResourceEvents_no_conflict (basePath t name : String)
    (existing : List Resource) (choice : CreateChoice) (ic : Option String) (d : String)
    (hvalid : createTypes.contains t = true)
    (hc : createConflict existing name = false) :
    createResourceEvents basePath t name existing choice ic d =
      createNewResourceEvents basePath t name ic d := by
  rw [createResourceEvents.eq_def, hvalid, hc]
  simp

/-- C9, witness: a plain create of `tasks/api` writes exactly one file, at
`.lcagents/custom/tasks/api.md`. -/
theorem createResource_writes_custom_md_witness :
    ∃ base, ["/repo", ".lcagents", "custom", "tasks", "api" ++ ".md"] =
      ["/repo", ".lcagents", "custom", "tasks", base ++ ".md"] :=
  createResource_writes_custom_md "/repo" "tasks" "api" [] CreateChoice.cancel none
    "2026-10-11"
    (CEvent.write ["/repo", ".lcagents", "custom", "tasks", "api" ++ ".md"]
      (newResourceContent "tasks" "api" none "2026-10-11"))
    (by
      rw [createResourceEvents_no_conflict "/repo" "tasks" "api" [] CreateChoice.cancel
        none "2026-10-11" (by decide) (by decide)]
      exact List.Mem.head _) _ _ rfl

/-! # Lemmas about the search flow -/

theorem sameKey_iff {a b : SearchHit} :
    sameKey a b = true ↔ a.name = b.name ∧ a.rtype = b.rtype := by
  simp [sameKey]

theorem keepFirstsAux_key (nm ty : String) :
    ∀ (l prev : List SearchHit),
      (∃ x ∈ l, x.name = nm ∧ x.rtype = ty) →
      (∃ s ∈ prev, s.name = nm ∧ s.rtype = ty) ∨
      ∃ x ∈ keepFirstsAux prev l, x.name = nm ∧ x.rtype = ty := by
  intro l
  induction l with
  | nil =>
    intro prev h
    simp at h
  | cons r rest ih =>
    intro prev h
    by_cases hkey : r.name = nm ∧ r.rtype = ty
    · cases hprev : prev.any (fun s => sameKey s r) with
      | true =>
        obtain ⟨s, hs, hsk⟩ := List.any_eq_true.mp hprev
        have hk := sameKey_iff.mp hsk
        exact Or.inl ⟨s, hs, hk.1.trans hkey.1, hk.2.trans hkey.2⟩
      | false =>
        refine Or.inr ⟨r, ?_, hkey⟩
        rw [keepFirstsAux, hprev, if_neg (by simp)]
        exact List.mem_cons_self _ _
    · obtain ⟨x, hx, hxk⟩ := h
      rcases List.mem_cons.mp hx with rfl | hx2
      · exact absurd hxk hkey
      · rcases ih (prev ++ [r]) ⟨x, hx2, hxk⟩ with ⟨s, hs, hsk⟩ | ⟨y, hy, hyk⟩
        · rcases List.mem_append.mp hs with hs2 | hs2
          · exact Or.inl ⟨s, hs2, hsk⟩
          · have hsr : s = r := by simpa using hs2
            exact absurd (hsr ▸ hsk) hkey
        · refine Or.inr ⟨y, ?_, hyk⟩
          cases hprev : prev.any (fun s => sameKey s r) with
          | true =>
            rw [keepFirstsAux, hprev, if_pos rfl]
            exact hy
          | false =>
            rw [keepFirstsAux, hprev, if_neg (by simp)]
            exact List.mem_cons_of_mem _ hy

theorem keepFirsts_key {l : List SearchHit} {nm ty : String}
    (h : ∃ x ∈ l, x.name = nm ∧ x.rtype = ty) :
    ∃ x ∈ keepFirsts l, x.name = nm ∧ x.rtype = ty := by
  rcases keepFirstsAux_key nm ty l [] h with ⟨s, hs, -⟩ | hx
  · simp at hs
  · exact hx

theorem keepFirstsAux_pairwise :
    ∀ (l prev : List SearchHit),
      (keepFirstsAux prev l).Pairwise
        (fun a b => ¬(a.name = b.name ∧ a.rtype = b.rtype)) ∧
      ∀ x ∈ keepFirstsAux prev l, ∀ s ∈ prev,
        ¬(s.name = x.name ∧ s.rtype = x.rtype) := by
  intro l
  induction l with
  | nil =>
    intro prev
    refine ⟨List.Pairwise.nil, ?_⟩
    intro x hx
    simp [keepFirstsAux] at hx
  | cons r rest ih =>
    intro prev
    cases hprev : prev.any (fun s => sameKey s r) with
    | true =>
      rw [keepFirstsAux, hprev, if_pos rfl]
      obtain ⟨hp, hmem⟩ := ih (prev ++ [r])
      refine ⟨hp, ?_⟩
      intro x hx s hs
      exact hmem x hx s (List.mem_append.mpr (Or.inl hs))
    | false =>
      rw [keepFirstsAux, hprev, if_neg (by simp)]
      obtain ⟨hp, hmem⟩ := ih (prev ++ [r])
      constructor
      · refine List.Pairwise.cons ?_ hp
        intro x hx
        exact hmem x hx r (List.mem_append.mpr (Or.inr (List.mem_cons_self _ _)))
      · intro x hx s hs
        rcases List.mem_cons.mp hx with rfl | hx2
        · intro hk
          have htrue : prev.any (fun s2 => sameKey s2 x) = true :=
            List.any_eq_true.mpr ⟨s, hs, sameKey_iff.mpr hk⟩
          rw [hprev] at htrue
          exact Bool.noConfusion htrue
        · exact hmem x hx2 s (List.mem_append.mpr (Or.inl hs))

theorem procRes_hit {query t : String} {r : SRes}
    (hmatch : strContains (strLower r.name) (strLower query) = true ∨
      (goodExt r.name = true ∧ ∃ c, r.readRes = Except.ok (some c) ∧ c ≠ "" ∧
        strContains (strLower c) (strLower query) = true)) :
    ∃ hit ∈ procRes query t r, hit.name = r.name ∧ hit.rtype = t := by
  by_cases hname : strContains (strLower r.name) (strLower query) = true
  · refine ⟨⟨r.name, r.path, r.source, t, none⟩, ?_, rfl, rfl⟩
    rw [procRes, if_pos hname]
    exact List.mem_cons_self _ _
  · rcases hmatch with h | ⟨hext, c, hread, hne, hcmatch⟩
    · exact absurd h hname
    · have hco : contentOf r.readRes = some c := by
        rw [hread]
        simp [contentOf, hne]
      have hnameF : strContains (strLower r.name) (strLower query) = false :=
        Bool.eq_false_iff.mpr hname
      refine ⟨⟨r.name, r.path, r.source, t,
        some (extractContextualSnippet c query 3)⟩, ?_, rfl, rfl⟩
      rw [procRes, if_neg (by rw [hnameF]; simp), if_pos hext, hco]
      show _ ∈ (if strContains (strLower c) (strLower query) = true then
        [(⟨r.name, r.path, r.source, t,
          some (extractContextualSnippet c query 3)⟩ : SearchHit)] else [])
      rw [if_pos hcmatch]
      exact List.mem_cons_self _ _

/-- C7: a resource whose type listing succeeded and which matches the query
— by name, or by successfully read non-empty content — always appears in the
search result, whatever errors other types' listings or other files' reads
raised. -/
theorem searchResources_error_isolation
    (query : String) (env : SearchEnv) (t : String) (rs : List SRes) (r : SRes)
    (ht : t ∈ searchTypes) (henv : env t = Except.ok rs) (hr : r ∈ rs)
    (hmatch : strContains (strLower r.name) (strLower query) = true ∨
      (goodExt r.name = true ∧ ∃ c, r.readRes = Except.ok (some c) ∧ c ≠ "" ∧
        strContains (strLower c) (strLower query) = true)) :
    ∃ hit ∈ searchResources query env, hit.name = r.name ∧ hit.rtype = t := by
  obtain ⟨hit, hhit, hn, hty⟩ := procRes_hit hmatch
  apply keepFirsts_key
  refine ⟨hit, ?_, hn, hty⟩
  rw [rawSearchResults]
  apply List.mem_flatMap.mpr
  refine ⟨t, ht, ?_⟩
  rw [henv]
  exact List.mem_flatMap.mpr ⟨r, hr, hhit⟩

/-- C7, witness: in an environment where the `templates` listing throws and
one `tasks` file is unreadable, the readable matching `tasks` resource still
appears in the result. -/
theorem searchResources_error_isolation_witness :
    ∃ hit ∈ searchResources "review" envW,
      hit.name = "review.md" ∧ hit.rtype = "tasks" :=
  searchResources_error_isolation "review" envW "tasks"
    [⟨"review.md", "/p/review.md", "core", .ok (some "review steps")⟩,
      ⟨"broken.md", "/p/broken.md", "core", .error ()⟩]
    ⟨"review.md", "/p/review.md", "core", .ok (some "review steps")⟩
    (by decide) rfl (List.Mem.head _) (Or.inl (by decide))

/-- C10: the search result never holds two entries with the same
`(name, type)` pair — a resource matching both by name and by content still
appears only once. -/
theorem searchResources_unique (query : String) (env : SearchEnv) :
    (searchResources query env).Pairwise
      (fun a b => ¬(a.name = b.name ∧ a.rtype = b.rtype)) :=
  (keepFirstsAux_pairwise (rawSearchResults query env) []).1

/-! # Claim C5 and C6 theorems -/

theorem removeExceptConfig_eq_filter (l : List (String × String)) :
    removeExceptConfig l =
      l.filter (fun e => e.1 == "config.yaml" || e.1 == "user-settings.yaml") := by
  induction l with
  | nil => rfl
  | cons e rest ih =>
    rw [removeExceptConfig, List.filter_cons]
    by_cases h1 : e.1 = "config.yaml"
    · simp [h1, ih]
    · by_cases h2 : e.1 = "user-settings.yaml"
      · simp [h1, h2, ih]
      · simp [h1, h2, ih]

/-- C5: after a confirmed uninstall without the keep-config flag, no entry of
`.lcagents` survives; with the flag, an entry survives (unchanged) exactly
when its name is `config.yaml` or `user-settings.yaml`. -/
theorem uninstall_keeps_exactly_config (entries : List (String × String)) :
    uninstallRun false entries = [] ∧
    ∀ e, e ∈ uninstallRun true entries ↔
      e ∈ entries ∧ (e.1 = "config.yaml" ∨ e.1 = "user-settings.yaml") := by
  refine ⟨rfl, ?_⟩
  intro e
  show e ∈ removeExceptConfig entries ↔ _
  rw [removeExceptConfig_eq_filter, List.mem_filter]
  simp

/-- C6: `checkForFlatInstallation` returns true exactly when the `.lcagents`
root exists, `core` is absent and `agents` is present directly under it, and
`performLayeredInstallation` invokes `migrateFromFlatStructure` (rather than
a fresh core-system install) exactly when the check returns true. -/
theorem flat_check_and_migration (fs : FlatCheckFS) :
    (checkForFlatInstallation fs = true ↔
      fs.rootExists = true ∧ fs.coreExists = false ∧ fs.agentsExists = true) ∧
    (installStep fs = InstallStep.migrateFromFlat ↔ checkForFlatInstallation fs = true) := by
  rcases fs with ⟨r, c, a⟩
  cases r <;> cases c <;> cases a <;>
    simp [checkForFlatInstallation, installStep]

end LCAgents
